import Mathlib

/-!
Verification development for the dead-file detector `detect_dead_files.py`.

The script walks a TypeScript/JavaScript source tree: starting from configured
entry files it recursively resolves relative `import` statements, marking each
reached module path as visited, then reports the visited set, the files never
reached, and one- and two-level import listings.

Shallow embedding conventions:
- a filesystem path is a list of `/`-separated segments (`MPath`); the functions
  `splitPath`, `normSegs`, `pathToString` embed the `str.split('/')`,
  `os.path.normpath` and string rendering used by the script;
- the filesystem is a record `FS`: the (normalized) paths of regular files and
  of directories, and per-path read behaviour — whether opening succeeds, the import
  strings the regex extracts from the contents, and the exception text
  when opening fails;
- the recursive `visit_file` is embedded with an explicit fuel parameter
  (`visitFile`); `none` means the fuel ran out, and we prove that the fuel
  `totalFuel` always suffices, so the fuel-free `visitFileRun` is total;
- fallible steps (file reads) return `Except String`, mirroring uncaught
  exceptions propagating out of the run.
-/

/-- A filesystem path, as its `/`-separated segments. -/
abbrev MPath := List String

/-- Characters of a string; `String.data` in list form for structural recursion. -/
def chars (s : String) : List Char := s.data

/-- Auxiliary splitter: split a character list on `/`, accumulating the current
segment in reverse. Embeds Python's `str.split('/')`. -/
def splitSlashAux : List Char → List Char → List String
  | [], acc => [String.mk acc.reverse]
  | c :: rest, acc =>
    if c = '/' then String.mk acc.reverse :: splitSlashAux rest []
    else splitSlashAux rest (c :: acc)

/-- Split a path string on `/` into segments. -/
def splitPath (s : String) : List String := splitSlashAux s.data []

/-- Embeds Python's `str.startswith`. -/
def strStartsWith (s pre : String) : Bool := pre.data.isPrefixOf s.data

/-- Embeds Python's `str.endswith`. -/
def strEndsWith (s suf : String) : Bool := suf.data.isSuffixOf s.data

/-- Lexicographic comparison of character lists by code point — the order
Python's `sorted` uses on strings. -/
def charListLe : List Char → List Char → Bool
  | [], _ => true
  | _ :: _, [] => false
  | a :: as, b :: bs =>
    if a < b then true else if b < a then false else charListLe as bs

/-- Python's string comparison: lexicographic by code point. -/
def strLe (s t : String) : Bool := charListLe s.data t.data

/-- `strLe` as a relation, for use with the sorting machinery. -/
def StrLeP (s t : String) : Prop := strLe s t = true

instance : DecidableRel StrLeP := fun s t => instDecidableEqBool (strLe s t) true

/-- Concatenation of a list of strings (what successive `out.write` calls
accumulate in an output file). -/
def strConcat : List String → String
  | [] => ""
  | s :: rest => s ++ strConcat rest

/-- Render a path back to its string form, joining segments with `/`. -/
def pathToString : MPath → String
  | [] => ""
  | [s] => s
  | s :: rest => s ++ "/" ++ pathToString rest

/-- One step of `os.path.normpath`'s component scan: skip empty and `.`
components; for `..`, append when the stack is empty or ends in `..`,
otherwise pop; append ordinary components. -/
def normStep (stack : List String) (seg : String) : List String :=
  if seg = "" ∨ seg = "." then stack
  else if seg = ".." then
    match stack.getLast? with
    | none => [".."]
    | some l => if l = ".." then stack ++ [".."] else stack.dropLast
  else stack ++ [seg]

/-- Embeds `os.path.normpath` on a relative path, at segment level. The empty
list plays the role of the path `"."`. -/
def normSegs (segs : List String) : List String := segs.foldl normStep []

/-- The extension probe order of `resolve_import`: `['.ts', '.tsx', '.js', '.jsx']`. -/
def exts : List String := [".ts", ".tsx", ".js", ".jsx"]

/-- String-append an extension to a path, i.e. Python's `full_path + ext`:
the extension attaches to the final segment. An empty segment list stands for
the path `"."`, so there the concatenation is `"." + ext`. -/
def addExt : MPath → String → MPath
  | [], ext => ["." ++ ext]
  | [s], ext => [s ++ ext]
  | s :: rest, ext => s :: addExt rest ext

/-- The filesystem and file contents visible to the script. `files` and `dirs`
hold normalized paths of regular files and directories. `readOk` tells whether
`open(...)` followed by `read()` succeeds on a path; `fileImports` gives the import
strings `import_pattern.findall` extracts from its contents; `readErr`
is the exception text when reading fails. -/
structure FS where
  files : List MPath
  dirs : List MPath
  readOk : MPath → Bool
  fileImports : MPath → List String
  readErr : MPath → String

/-- Embeds `os.path.exists`: the path is a regular file or a directory. -/
def existsP (fs : FS) (p : MPath) : Bool :=
  decide (p ∈ fs.files) || decide (p ∈ fs.dirs)

/-- First candidate in a list that exists as a regular file, returned
normalized — one `for ext in ...: if os.path.isfile(candidate): return
os.path.normpath(candidate)` loop of `resolve_import`. -/
def firstFileCandidate (fs : FS) : List MPath → Option MPath
  | [] => none
  | c :: rest =>
    if c ∈ fs.files then some (normSegs c) else firstFileCandidate fs rest

/-- Embeds `os.path.normpath(os.path.join(os.path.dirname(base_file), import_path))`:
the `full_path` of `resolve_import`. -/
def joinedPath (base : MPath) (impPath : String) : MPath :=
  normSegs (base.dropLast ++ splitPath impPath)

/-- Embeds `resolve_import(base_file, import_path)`: only relative paths
(leading `.`) are attempted; the import is joined to the importing file's
directory and normalized; the four extensions are probed in order, then the
four `index.<ext>` files inside the joined path. -/
def resolveImport (fs : FS) (base : MPath) (impPath : String) : Option MPath :=
  if strStartsWith impPath "." then
    match firstFileCandidate fs (exts.map (fun ext => addExt (joinedPath base impPath) ext)) with
    | some r => some r
    | none =>
      firstFileCandidate fs
        (exts.map (fun ext => joinedPath base impPath ++ ["index" ++ ext]))
  else none

/-- Resolution as the specification words it: first extension (in the fixed
order) whose candidate exists as a regular file, else first extension whose
directory-index candidate exists, else null. Stated with `List.find?` to
compare against `resolveImport`. -/
def resolveImportSpec (fs : FS) (base : MPath) (impPath : String) : Option MPath :=
  if strStartsWith impPath "." then
    match exts.find? (fun ext => decide (addExt (joinedPath base impPath) ext ∈ fs.files)) with
    | some ext => some (normSegs (addExt (joinedPath base impPath) ext))
    | none =>
      match exts.find? (fun ext => decide (joinedPath base impPath ++ ["index" ++ ext] ∈ fs.files)) with
      | some ext => some (normSegs (joinedPath base impPath ++ ["index" ++ ext]))
      | none => none
  else none

/-- The import loop inside `visit_file`: for each extracted import string,
resolve it and, when resolution succeeds, recurse (through the supplied
`visit`, which is the fuel-smaller `visitFile`). `none` is fuel exhaustion;
`some (Except.error e)` is an uncaught exception propagating out. -/
def visitImportsGo (fs : FS) (visit : List MPath → MPath → Option (Except String (List MPath)))
    (base : MPath) : List MPath → List String → Option (Except String (List MPath))
  | visited, [] => some (Except.ok visited)
  | visited, imp :: rest =>
    match resolveImport fs base imp with
    | none => visitImportsGo fs visit base visited rest
    | some q =>
      match visit visited q with
      | some (Except.ok v') => visitImportsGo fs visit base v' rest
      | some (Except.error e) => some (Except.error e)
      | none => none

/-- One unfolding of `visit_file(filepath)`: return at once when the path is
already visited or does not exist; otherwise mark it visited, read it (an
unreadable file raises, aborting the run), and recurse into each resolved import.
-/
def visitStep (fs : FS) (visit : List MPath → MPath → Option (Except String (List MPath)))
    (visited : List MPath) (p : MPath) : Option (Except String (List MPath)) :=
  if p ∈ visited then some (Except.ok visited)
  else if existsP fs p = false then some (Except.ok visited)
  else if fs.readOk p then
    visitImportsGo fs visit p (p :: visited) (fs.fileImports p)
  else some (Except.error (fs.readErr p))

/-- Fuel-indexed embedding of the recursive `visit_file`. -/
def visitFile (fs : FS) : Nat → List MPath → MPath → Option (Except String (List MPath))
  | 0 => fun _ _ => none
  | Nat.succ n => visitStep fs (visitFile fs n)

/-- Fuel that always suffices for the traversal: more than the number of
recorded files and directories. -/
def totalFuel (fs : FS) : Nat := (fs.files ++ fs.dirs).length + 1

/-- The traversal run with sufficient fuel (proved to never exhaust it). -/
def visitFileRun (fs : FS) (visited : List MPath) (p : MPath) : Except String (List MPath) :=
  (visitFile fs (totalFuel fs) visited p).getD (Except.error "fuel exhausted")

/-- The script's configuration constants: `SRC_DIR` and `ENTRY_FILES`. -/
structure Config where
  srcDir : String
  entryFiles : List String

/-- The constants as written in the script. -/
def defaultConfig : Config := { srcDir := "src", entryFiles := ["main.tsx", "App.tsx"] }

/-- Embeds `os.path.normpath(os.path.join(SRC_DIR, entry))`. -/
def entryPath (srcDir entry : String) : MPath :=
  normSegs (splitPath srcDir ++ splitPath entry)

/-- The entry loop: visit each configured entry whose path exists on disk,
silently skipping the rest; a raised exception aborts the loop. -/
def traverseEntries (fs : FS) (srcDir : String) : List String → List MPath → Except String (List MPath)
  | [], visited => Except.ok visited
  | e :: rest, visited =>
    if existsP fs (entryPath srcDir e) then
      match visitFileRun fs visited (entryPath srcDir e) with
      | Except.ok v' => traverseEntries fs srcDir rest v'
      | Except.error err => Except.error err
    else traverseEntries fs srcDir rest visited

/-- The whole traversal phase of the script, starting from the empty visited set. -/
def runTraversal (fs : FS) (cfg : Config) : Except String (List MPath) :=
  traverseEntries fs cfg.srcDir cfg.entryFiles []

/-- Embeds `f.endswith(('.ts', '.tsx', '.js', '.jsx'))`. -/
def hasSourceExt (name : String) : Bool := exts.any (fun e => strEndsWith name e)

/-- A path lies strictly under a directory. -/
def underDir (dir p : MPath) : Bool := dir.isPrefixOf p && decide (p ≠ dir)

/-- Embeds `get_all_source_files()`: the `os.walk(SRC_DIR)` scan collects
exactly the regular files strictly under the source root whose name ends in
one of the four extensions, as normalized paths. -/
def getAllSourceFiles (fs : FS) (srcDir : String) : List MPath :=
  fs.files.filter (fun p =>
    underDir (normSegs (splitPath srcDir)) p &&
      (match p.getLast? with
       | some name => hasSourceExt name
       | none => false))

/-- Embeds `unused_files = [f for f in all_files if f not in visited]`. -/
def unusedFiles (fs : FS) (srcDir : String) (visited : List MPath) : List MPath :=
  (getAllSourceFiles fs srcDir).filter (fun f => decide (f ∉ visited))

/-- The `Total files` count printed by the script. -/
def totalCount (fs : FS) (srcDir : String) : Nat := (getAllSourceFiles fs srcDir).length

/-- The `Used files` count printed by the script (size of the visited set). -/
def usedCount (visited : List MPath) : Nat := visited.length

/-- The `Unused files` count printed by the script. -/
def unusedCount (fs : FS) (srcDir : String) (visited : List MPath) : Nat :=
  (unusedFiles fs srcDir visited).length

/-- The visited paths in the order `sorted(visited)` iterates them: sorted by
their string form (Python compares the path strings). -/
def sortPaths (visited : List MPath) : List MPath :=
  visited.insertionSort (fun p q => StrLeP (pathToString p) (pathToString q))

/-- The lines of `used_files.md` in order: the visited paths' strings, sorted. -/
def usedLines (visited : List MPath) : List String :=
  (visited.map pathToString).insertionSort StrLeP

/-- The full contents of `used_files.md`: each sorted visited path followed by
a newline, accumulated by the write loop. -/
def usedFilesContent (visited : List MPath) : String :=
  (usedLines visited).foldl (fun acc s => acc ++ s ++ "\n") ""

/-- The direct-import targets listed under a file's heading: each extracted import
that resolves and whose resolution is in the visited set, in extraction
order — the filtering done by the `used_files_direct_imports.md` loop. -/
def directTargets (fs : FS) (visited : List MPath) (f : MPath) : List MPath :=
  (fs.fileImports f).filterMap (fun imp =>
    match resolveImport fs f imp with
    | some r => if r ∈ visited then some r else none
    | none => none)

/-- The section the direct-imports report writes for one visited file: heading,
one bullet per listed target, and a blank line. The read is not guarded, so an
unreadable file raises and aborts the report. -/
def directSection (fs : FS) (visited : List MPath) (f : MPath) : Except String String :=
  if fs.readOk f then
    Except.ok ("## " ++ pathToString f ++ "\n" ++
      strConcat ((directTargets fs visited f).map (fun r => "- " ++ pathToString r ++ "\n")) ++
      "\n")
  else Except.error (fs.readErr f)

/-- The whole `used_files_direct_imports.md` generation: sections for the
sorted visited files, concatenated; the first raised read error aborts the run. -/
def directImportsReport (fs : FS) (visited : List MPath) : Except String String :=
  (sortPaths visited).foldlM (fun acc f => (directSection fs visited f).map (fun s => acc ++ s)) ""

/-- The second-level targets listed under a direct import `r` in the two-level
report: `r`'s own resolved imports filtered to the visited set. -/
def twoLevelSubTargets (fs : FS) (visited : List MPath) (r : MPath) : List MPath :=
  (fs.fileImports r).filterMap (fun sub =>
    match resolveImport fs r sub with
    | some s => if s ∈ visited then some s else none
    | none => none)

/-- The nested bullet block under one direct import in the two-level report:
the inner `try` reads `r` and lists its visited imports indented; a failed
read is caught and rendered as an indented inline error bullet. -/
def subBullets (fs : FS) (visited : List MPath) (r : MPath) : String :=
  if fs.readOk r then
    strConcat ((twoLevelSubTargets fs visited r).map
      (fun s => "    - " ++ pathToString s ++ "\n"))
  else "    - [Error reading " ++ pathToString r ++ ": " ++ fs.readErr r ++ "]\n"

/-- The first-level targets of the two-level report for one file: same
extraction, resolution and visited-set filtering as the loop performs. -/
def twoLevelTopTargets (fs : FS) (visited : List MPath) (f : MPath) : List MPath :=
  (fs.fileImports f).filterMap (fun imp =>
    match resolveImport fs f imp with
    | some r => if r ∈ visited then some r else none
    | none => none)

/-- The section the two-level report writes for one visited file: heading, then
under the outer `try` a bullet for each visited resolved import followed by its
nested block; a failed read of the file itself is caught by the outer `except`
and rendered as an inline error bullet; then a blank line. -/
def twoLevelSection (fs : FS) (visited : List MPath) (f : MPath) : String :=
  "## " ++ pathToString f ++ "\n" ++
    (if fs.readOk f then
      strConcat ((fs.fileImports f).map (fun imp =>
        match resolveImport fs f imp with
        | some r =>
          if r ∈ visited then "- " ++ pathToString r ++ "\n" ++ subBullets fs visited r
          else ""
        | none => ""))
    else "- [Error reading " ++ pathToString f ++ ": " ++ fs.readErr f ++ "]\n") ++
    "\n"

/-- The whole `used_files_two_levels.md` generation: per-file sections for the
sorted visited files, accumulated by the write loop; never raises. -/
def twoLevelsReport (fs : FS) (visited : List MPath) : String :=
  (sortPaths visited).foldl (fun acc f => acc ++ twoLevelSection fs visited f) ""

/-- Chains of resolvable relative imports starting at `root`: reflexive, and
extendable by one resolved import of an already reached file. -/
inductive ReachFrom (fs : FS) (root : MPath) : MPath → Prop where
  | refl : ReachFrom fs root root
  | step {p q : MPath} {imp : String} (h : ReachFrom fs root p)
      (him : imp ∈ fs.fileImports p) (hres : resolveImport fs p imp = some q) :
      ReachFrom fs root q

/-- A path is reachable when some configured entry file exists on disk and a
chain of resolvable relative imports leads from it to the path. -/
def Reach (fs : FS) (cfg : Config) (p : MPath) : Prop :=
  ∃ e ∈ cfg.entryFiles,
    existsP fs (entryPath cfg.srcDir e) = true ∧ ReachFrom fs (entryPath cfg.srcDir e) p

/-- A path has been fully processed relative to a set `S`: its read succeeded
and every resolved import of it lies in `S`. -/
def Processed (fs : FS) (S : List MPath) (x : MPath) : Prop :=
  fs.readOk x = true ∧
    ∀ imp ∈ fs.fileImports x, ∀ q, resolveImport fs x imp = some q → q ∈ S

/-- Every member of the set has been fully processed relative to the set. -/
def SelfClosed (fs : FS) (S : List MPath) : Prop := ∀ x ∈ S, Processed fs S x

/-- A segment that `normpath`'s scan treats as ordinary: not empty, not `.`,
not `..`. -/
def Ordinary (s : String) : Prop := s ≠ "" ∧ s ≠ "." ∧ s ≠ ".."

/-- The shape of `normpath` output on relative paths: a run of leading `..`
segments followed by ordinary segments. -/
def NormShape (p : List String) : Prop :=
  ∃ k rest, p = List.replicate k ".." ++ rest ∧ ∀ s ∈ rest, Ordinary s

theorem normStep_ordinary (stack : List String) (s : String) (h : Ordinary s) :
    normStep stack s = stack ++ [s] := by
  obtain ⟨h1, h2, h3⟩ := h
  simp [normStep, h1, h2, h3]

theorem normSegs_append_single (l : List String) (s : String) :
    normSegs (l ++ [s]) = normStep (normSegs l) s := by
  simp [normSegs, List.foldl_append]

theorem normSegs_append_ordinary (l : List String) (s : String) (h : Ordinary s) :
    normSegs (l ++ [s]) = normSegs l ++ [s] := by
  rw [normSegs_append_single, normStep_ordinary _ _ h]

theorem mem_of_getLast?_eq {α : Type} {l : List α} {a : α} (h : l.getLast? = some a) :
    a ∈ l := by
  induction l with
  | nil => simp at h
  | cons x xs ih =>
    cases xs with
    | nil =>
      simp at h
      simp [h]
    | cons y ys =>
      rw [List.getLast?_cons_cons] at h
      exact List.mem_cons_of_mem _ (ih h)

theorem normShape_normStep {stack : List String} (h : NormShape stack) (s : String) :
    NormShape (normStep stack s) := by
  obtain ⟨k, rest, hs, hord⟩ := h
  by_cases h1 : s = "" ∨ s = "."
  · simpa [normStep, h1] using ⟨k, rest, hs, hord⟩
  · push_neg at h1
    by_cases h2 : s = ".."
    · subst h2
      cases hr : stack.getLast? with
      | none =>
        rw [List.getLast?_eq_none_iff] at hr
        simp [normStep, hr, h1]
        exact ⟨1, [], by simp, by simp⟩
      | some l' =>
        by_cases h3 : l' = ".."
        · subst h3
          have hrest : rest = [] := by
            rcases List.eq_nil_or_concat rest with h | ⟨r0, a, h⟩
            · exact h
            · exfalso
              have ha : a ∈ rest := by simp [h]
              have hA := (hord a ha).2.2
              have hlast : stack.getLast? = some a := by
                rw [hs, h, List.concat_eq_append, ← List.append_assoc]
                exact List.getLast?_concat _
              rw [hlast] at hr
              exact hA (Option.some.inj hr)
          subst hrest
          refine ⟨k + 1, [], ?_, by simp⟩
          simp only [normStep, hr, if_pos rfl]
          simp [hs, List.replicate_succ']
        · have hmain : normStep stack ".." = stack.dropLast := by
            simp only [normStep, hr]
            simp [h3]
          rw [hmain]
          have hrne : rest ≠ [] := by
            intro hre
            have hmem := mem_of_getLast?_eq hr
            rw [hs, hre, List.append_nil] at hmem
            exact h3 (List.eq_of_mem_replicate hmem)
          refine ⟨k, rest.dropLast, ?_, ?_⟩
          · rw [hs, List.dropLast_append_of_ne_nil _ hrne]
          · intro x hx
            exact hord x (List.dropLast_subset _ hx)
    · rw [normStep_ordinary _ _ ⟨h1.1, h1.2, h2⟩]
      refine ⟨k, rest ++ [s], by simp [hs], ?_⟩
      intro x hx
      rcases List.mem_append.mp hx with h | h
      · exact hord x h
      · simp at h
        subst h
        exact ⟨h1.1, h1.2, h2⟩

theorem normShape_normSegs (l : List String) : NormShape (normSegs l) := by
  have : ∀ (l : List String) (acc : List String), NormShape acc →
      NormShape (l.foldl normStep acc) := by
    intro l
    induction l with
    | nil => intro acc h; simpa using h
    | cons s rest ih =>
      intro acc h
      exact ih _ (normShape_normStep h s)
  exact this l [] ⟨0, [], by simp, by simp⟩

theorem foldl_normStep_ordinary (rest : List String) (acc : List String)
    (h : ∀ s ∈ rest, Ordinary s) : rest.foldl normStep acc = acc ++ rest := by
  induction rest generalizing acc with
  | nil => simp
  | cons s r ih =>
    have hs : Ordinary s := h s (by simp)
    simp only [List.foldl_cons, normStep_ordinary _ _ hs]
    rw [ih _ (fun x hx => h x (by simp [hx]))]
    simp

theorem foldl_normStep_replicate (k : Nat) :
    (List.replicate k "..").foldl normStep [] = List.replicate k ".." := by
  induction k with
  | zero => simp
  | succ n ih =>
    rw [List.replicate_succ']
    rw [List.foldl_append, ih]
    cases n with
    | zero => simp [normStep]
    | succ m =>
      have hl : (List.replicate (m + 1) "..").getLast? = some ".." := by
        rw [List.replicate_succ']
        exact List.getLast?_concat _
      simp only [List.foldl_cons, List.foldl_nil, normStep, hl]
      simp [List.replicate_succ']

theorem normSegs_fix {p : List String} (h : NormShape p) : normSegs p = p := by
  obtain ⟨k, rest, hs, hord⟩ := h
  subst hs
  unfold normSegs
  rw [List.foldl_append, foldl_normStep_replicate, foldl_normStep_ordinary _ _ hord]

theorem ordinary_of_three_le {s : String} (h : 3 ≤ s.length) : Ordinary s := by
  refine ⟨?_, ?_, ?_⟩ <;> intro he <;> subst he
  · have h0 : ("" : String).length = 0 := rfl
    omega
  · have h0 : ("." : String).length = 1 := rfl
    omega
  · have h0 : (".." : String).length = 2 := rfl
    omega

theorem ordinary_append_right {t ext : String} (h : 3 ≤ ext.length) :
    Ordinary (t ++ ext) := by
  apply ordinary_of_three_le
  rw [String.length_append]
  omega

theorem exts_length : ∀ ext ∈ exts, 3 ≤ ext.length := by
  intro ext h
  simp [exts] at h
  rcases h with h | h | h | h <;> subst h <;> decide

theorem addExt_concat (l : List String) (s ext : String) :
    addExt (l ++ [s]) ext = l ++ [s ++ ext] := by
  induction l with
  | nil => rfl
  | cons x xs ih =>
    cases xs with
    | nil => rfl
    | cons y ys => simpa [addExt] using ih

theorem addExt_shape (p : MPath) (ext : String) :
    ∃ pre t, addExt p ext = pre ++ [t ++ ext] := by
  rcases List.eq_nil_or_concat p with h | ⟨l, a, h⟩
  · subst h
    exact ⟨[], ".", rfl⟩
  · subst h
    rw [List.concat_eq_append, addExt_concat]
    exact ⟨l, a, rfl⟩

theorem normShape_append_ordinary {p : List String} (h : NormShape p) {s : String}
    (hs : Ordinary s) : NormShape (p ++ [s]) := by
  obtain ⟨k, rest, hp, hord⟩ := h
  refine ⟨k, rest ++ [s], by simp [hp], ?_⟩
  intro x hx
  rcases List.mem_append.mp hx with h | h
  · exact hord x h
  · simp at h
    subst h
    exact hs

theorem normShape_addExt {p : List String} (h : NormShape p) {ext : String}
    (hlen : 3 ≤ ext.length) : NormShape (addExt p ext) := by
  obtain ⟨k, rest, hp, hord⟩ := h
  rcases List.eq_nil_or_concat rest with hre | ⟨r0, a, hre⟩
  · subst hre
    rw [List.append_nil] at hp
    cases k with
    | zero =>
      subst hp
      refine ⟨0, ["." ++ ext], rfl, ?_⟩
      intro s hs
      simp at hs
      subst hs
      exact ordinary_append_right hlen
    | succ m =>
      subst hp
      rw [List.replicate_succ', addExt_concat]
      refine ⟨m, [".." ++ ext], by simp, ?_⟩
      intro s hs
      simp at hs
      subst hs
      exact ordinary_append_right hlen
  · subst hre
    rw [hp, List.concat_eq_append, ← List.append_assoc, addExt_concat, List.append_assoc]
    refine ⟨k, r0 ++ [a ++ ext], rfl, ?_⟩
    intro x hx
    rcases List.mem_append.mp hx with h | h
    · exact hord x (by rw [List.concat_eq_append]; exact List.mem_append.mpr (Or.inl h))
    · simp at h
      subst h
      exact ordinary_append_right hlen

theorem normShape_joinedPath (base : MPath) (imp : String) :
    NormShape (joinedPath base imp) := normShape_normSegs _

theorem firstFileCandidate_some {fs : FS} {l : List MPath} {q : MPath}
    (h : firstFileCandidate fs l = some q) :
    ∃ c ∈ l, c ∈ fs.files ∧ q = normSegs c := by
  induction l with
  | nil => simp [firstFileCandidate] at h
  | cons c rest ih =>
    by_cases hc : c ∈ fs.files
    · simp [firstFileCandidate, hc] at h
      exact ⟨c, by simp, hc, h.symm⟩
    · simp [firstFileCandidate, hc] at h
      obtain ⟨c', hmem, hf, hq⟩ := ih h
      exact ⟨c', by simp [hmem], hf, hq⟩

theorem firstFileCandidate_none {fs : FS} {l : List MPath}
    (h : ∀ c ∈ l, c ∉ fs.files) : firstFileCandidate fs l = none := by
  induction l with
  | nil => rfl
  | cons c rest ih =>
    have hc : c ∉ fs.files := h c (by simp)
    simp [firstFileCandidate, hc]
    exact ih (fun x hx => h x (by simp [hx]))

theorem firstFileCandidate_eq_find (fs : FS) (l : List MPath) :
    firstFileCandidate fs l =
      (l.find? (fun c => decide (c ∈ fs.files))).map normSegs := by
  induction l with
  | nil => rfl
  | cons c rest ih =>
    by_cases hc : c ∈ fs.files
    · simp [firstFileCandidate, hc, List.find?]
    · simp [firstFileCandidate, hc, List.find?, ih]

theorem resolveImport_eq_spec (fs : FS) (base : MPath) (imp : String) :
    resolveImport fs base imp = resolveImportSpec fs base imp := by
  unfold resolveImport resolveImportSpec
  by_cases hdot : strStartsWith imp "."
  · simp only [hdot, if_true]
    rw [firstFileCandidate_eq_find, firstFileCandidate_eq_find, List.find?_map _ _,
      List.find?_map _ _]
    cases h1 : exts.find? (fun ext => decide (addExt (joinedPath base imp) ext ∈ fs.files)) with
    | some ext =>
      have h1' : exts.find?
          ((fun c => decide (c ∈ fs.files)) ∘ fun ext => addExt (joinedPath base imp) ext) =
          some ext := h1
      simp [h1, h1']
    | none =>
      have h1' : exts.find?
          ((fun c => decide (c ∈ fs.files)) ∘ fun ext => addExt (joinedPath base imp) ext) =
          none := h1
      simp only [h1, h1', Option.map_none']
      cases h2 : exts.find?
          (fun ext => decide (joinedPath base imp ++ ["index" ++ ext] ∈ fs.files)) with
      | some ext =>
        have h2' : exts.find?
            ((fun c => decide (c ∈ fs.files)) ∘ fun ext => joinedPath base imp ++ ["index" ++ ext]) =
            some ext := h2
        simp [h2, h2']
      | none =>
        have h2' : exts.find?
            ((fun c => decide (c ∈ fs.files)) ∘ fun ext => joinedPath base imp ++ ["index" ++ ext]) =
            none := h2
        simp [h2, h2']
  · simp [hdot]

theorem resolveImport_shape {fs : FS} {base : MPath} {imp : String} {q : MPath}
    (h : resolveImport fs base imp = some q) :
    q ∈ fs.files ∧ ∃ pre t ext, ext ∈ exts ∧ q = pre ++ [t ++ ext] := by
  unfold resolveImport at h
  by_cases hdot : strStartsWith imp "."
  · simp only [hdot, if_true] at h
    have hshape := normShape_joinedPath base imp
    cases h1 : firstFileCandidate fs
        (exts.map (fun ext => addExt (joinedPath base imp) ext)) with
    | some r =>
      rw [h1] at h
      have hq : r = q := by simpa using h
      subst hq
      obtain ⟨c, hcl, hcf, hcq⟩ := firstFileCandidate_some h1
      obtain ⟨ext, hext, hce⟩ := List.mem_map.mp hcl
      subst hce
      have hfix : normSegs (addExt (joinedPath base imp) ext) =
          addExt (joinedPath base imp) ext :=
        normSegs_fix (normShape_addExt hshape (exts_length ext hext))
      rw [hfix] at hcq
      subst hcq
      obtain ⟨pre, t, hpt⟩ := addExt_shape (joinedPath base imp) ext
      exact ⟨hcf, pre, t, ext, hext, hpt⟩
    | none =>
      rw [h1] at h
      obtain ⟨c, hcl, hcf, hcq⟩ := firstFileCandidate_some h
      obtain ⟨ext, hext, hce⟩ := List.mem_map.mp hcl
      subst hce
      have hlen5 : ("index" : String).length = 5 := rfl
      have hord : Ordinary ("index" ++ ext) :=
        ordinary_of_three_le (by rw [String.length_append, hlen5]; omega)
      have hfix : normSegs (joinedPath base imp ++ ["index" ++ ext]) =
          joinedPath base imp ++ ["index" ++ ext] :=
        normSegs_fix (normShape_append_ordinary hshape hord)
      rw [hfix] at hcq
      subst hcq
      exact ⟨hcf, joinedPath base imp, "index", ext, hext, rfl⟩
  · simp [hdot] at h

theorem resolveImport_mem_files {fs : FS} {base : MPath} {imp : String} {q : MPath}
    (h : resolveImport fs base imp = some q) : q ∈ fs.files :=
  (resolveImport_shape h).1

theorem resolveImport_none_of_no_candidate {fs : FS} {base : MPath} {imp : String}
    (h1 : ∀ ext ∈ exts, addExt (joinedPath base imp) ext ∉ fs.files)
    (h2 : ∀ ext ∈ exts, joinedPath base imp ++ ["index" ++ ext] ∉ fs.files) :
    resolveImport fs base imp = none := by
  unfold resolveImport
  by_cases hdot : strStartsWith imp "."
  · simp only [hdot, if_true]
    rw [firstFileCandidate_none, firstFileCandidate_none]
    · intro c hc
      obtain ⟨ext, hext, hce⟩ := List.mem_map.mp hc
      subst hce
      exact h2 ext hext
    · intro c hc
      obtain ⟨ext, hext, hce⟩ := List.mem_map.mp hc
      subst hce
      exact h1 ext hext
  · simp [hdot]

theorem existsP_of_mem_files {fs : FS} {p : MPath} (h : p ∈ fs.files) :
    existsP fs p = true := by
  simp [existsP, h]

theorem visitFile_zero (fs : FS) (v : List MPath) (p : MPath) :
    visitFile fs 0 v p = none := rfl

theorem visitFile_succ (fs : FS) (n : Nat) (v : List MPath) (p : MPath) :
    visitFile fs (n + 1) v p = visitStep fs (visitFile fs n) v p := rfl

theorem visitImportsGo_mono {fs : FS}
    {visit : List MPath → MPath → Option (Except String (List MPath))} {base : MPath}
    (hv : ∀ v q v', visit v q = some (Except.ok v') → v ⊆ v') :
    ∀ (l : List String) (v v' : List MPath),
      visitImportsGo fs visit base v l = some (Except.ok v') → v ⊆ v' := by
  intro l
  induction l with
  | nil =>
    intro v v' h
    simp only [visitImportsGo, Option.some.injEq, Except.ok.injEq] at h
    subst h
    exact List.Subset.refl v
  | cons imp rest ih =>
    intro v v' h
    simp only [visitImportsGo] at h
    cases hres : resolveImport fs base imp with
    | none =>
      simp only [hres] at h
      exact ih v v' h
    | some q =>
      simp only [hres] at h
      cases hq : visit v q with
      | none => simp [hq] at h
      | some r =>
        cases r with
        | error e => simp [hq] at h
        | ok v2 =>
          simp only [hq] at h
          exact List.Subset.trans (hv v q v2 hq) (ih v2 v' h)

theorem visitFile_mono (fs : FS) :
    ∀ (n : Nat) (v : List MPath) (p : MPath) (v' : List MPath),
      visitFile fs n v p = some (Except.ok v') → v ⊆ v' := by
  intro n
  induction n with
  | zero =>
    intro v p v' h
    simp [visitFile_zero] at h
  | succ n ih =>
    intro v p v' h
    rw [visitFile_succ] at h
    unfold visitStep at h
    by_cases h1 : p ∈ v
    · simp only [if_pos h1, Option.some.injEq, Except.ok.injEq] at h
      subst h
      exact List.Subset.refl v
    · rw [if_neg h1] at h
      by_cases h2 : existsP fs p = false
      · simp only [if_pos h2, Option.some.injEq, Except.ok.injEq] at h
        subst h
        exact List.Subset.refl v
      · rw [if_neg h2] at h
        by_cases h3 : fs.readOk p
        · rw [if_pos h3] at h
          have hg := visitImportsGo_mono (fun v q v' hh => ih v q v' hh) _ _ _ h
          exact fun x hx => hg (List.mem_cons_of_mem _ hx)
        · simp only [if_neg h3] at h
          simp at h

theorem visitFile_visits_root (fs : FS) :
    ∀ (n : Nat) (v : List MPath) (p : MPath) (v' : List MPath),
      visitFile fs n v p = some (Except.ok v') → existsP fs p = true → p ∈ v' := by
  intro n
  induction n with
  | zero =>
    intro v p v' h hex
    simp [visitFile_zero] at h
  | succ n ih =>
    intro v p v' h hex
    rw [visitFile_succ] at h
    unfold visitStep at h
    by_cases h1 : p ∈ v
    · simp only [if_pos h1, Option.some.injEq, Except.ok.injEq] at h
      subst h
      exact h1
    · rw [if_neg h1] at h
      rw [if_neg (by simp [hex])] at h
      by_cases h3 : fs.readOk p
      · rw [if_pos h3] at h
        exact visitImportsGo_mono (fun v q v' hh => visitFile_mono fs n v q v' hh) _ _ _ h
          (List.mem_cons_self p v)
      · simp only [if_neg h3] at h
        simp at h

theorem reachFrom_trans {fs : FS} {a b c : MPath}
    (h1 : ReachFrom fs a b) (h2 : ReachFrom fs b c) : ReachFrom fs a c := by
  induction h2 with
  | refl => exact h1
  | step h him hres ih => exact ReachFrom.step ih him hres

theorem visitImportsGo_sound {fs : FS}
    {visit : List MPath → MPath → Option (Except String (List MPath))} {base : MPath}
    (hs : ∀ v q v', visit v q = some (Except.ok v') →
      ∀ x ∈ v', x ∈ v ∨ ReachFrom fs q x) :
    ∀ (l : List String) (v v' : List MPath),
      visitImportsGo fs visit base v l = some (Except.ok v') →
      ∀ x ∈ v', x ∈ v ∨ ∃ imp ∈ l, ∃ q,
        resolveImport fs base imp = some q ∧ ReachFrom fs q x := by
  intro l
  induction l with
  | nil =>
    intro v v' h x hx
    simp only [visitImportsGo, Option.some.injEq, Except.ok.injEq] at h
    subst h
    exact Or.inl hx
  | cons imp rest ih =>
    intro v v' h x hx
    simp only [visitImportsGo] at h
    cases hres : resolveImport fs base imp with
    | none =>
      simp only [hres] at h
      rcases ih v v' h x hx with h' | ⟨imp', hmem, q, hq, hr⟩
      · exact Or.inl h'
      · exact Or.inr ⟨imp', List.mem_cons_of_mem _ hmem, q, hq, hr⟩
    | some q =>
      simp only [hres] at h
      cases hq : visit v q with
      | none => simp [hq] at h
      | some r =>
        cases r with
        | error e => simp [hq] at h
        | ok v2 =>
          simp only [hq] at h
          rcases ih v2 v' h x hx with h' | ⟨imp', hmem, q', hq', hr⟩
          · rcases hs v q v2 hq x h' with h'' | h''
            · exact Or.inl h''
            · exact Or.inr ⟨imp, List.mem_cons_self _ _, q, hres, h''⟩
          · exact Or.inr ⟨imp', List.mem_cons_of_mem _ hmem, q', hq', hr⟩

theorem visitFile_sound (fs : FS) :
    ∀ (n : Nat) (v : List MPath) (p : MPath) (v' : List MPath),
      visitFile fs n v p = some (Except.ok v') →
      ∀ x ∈ v', x ∈ v ∨ ReachFrom fs p x := by
  intro n
  induction n with
  | zero =>
    intro v p v' h
    simp [visitFile_zero] at h
  | succ n ih =>
    intro v p v' h x hx
    rw [visitFile_succ] at h
    unfold visitStep at h
    by_cases h1 : p ∈ v
    · simp only [if_pos h1, Option.some.injEq, Except.ok.injEq] at h
      subst h
      exact Or.inl hx
    · rw [if_neg h1] at h
      by_cases h2 : existsP fs p = false
      · simp only [if_pos h2, Option.some.injEq, Except.ok.injEq] at h
        subst h
        exact Or.inl hx
      · rw [if_neg h2] at h
        by_cases h3 : fs.readOk p
        · rw [if_pos h3] at h
          rcases visitImportsGo_sound (fun v q v' hh => ih v q v' hh) _ _ _ h x hx with
            h' | ⟨imp, hmem, q, hq, hr⟩
          · rcases List.mem_cons.mp h' with he | hm
            · subst he
              exact Or.inr ReachFrom.refl
            · exact Or.inl hm
          · exact Or.inr (reachFrom_trans (ReachFrom.step ReachFrom.refl hmem hq) hr)
        · simp only [if_neg h3] at h
          simp at h

theorem processed_mono {fs : FS} {S S' : List MPath} {x : MPath}
    (h : Processed fs S x) (hs : S ⊆ S') : Processed fs S' x :=
  ⟨h.1, fun imp him q hq => hs (h.2 imp him q hq)⟩

theorem visitImportsGo_closure {fs : FS}
    {visit : List MPath → MPath → Option (Except String (List MPath))} {base : MPath}
    (hmono : ∀ v q v', visit v q = some (Except.ok v') → v ⊆ v')
    (hroot : ∀ v q v', visit v q = some (Except.ok v') → existsP fs q = true → q ∈ v')
    (hclos : ∀ v q v', visit v q = some (Except.ok v') →
      ∀ x ∈ v', x ∉ v → Processed fs v' x) :
    ∀ (l : List String) (v v' : List MPath),
      visitImportsGo fs visit base v l = some (Except.ok v') →
      (∀ x ∈ v', x ∉ v → Processed fs v' x) ∧
      (∀ imp ∈ l, ∀ q, resolveImport fs base imp = some q → q ∈ v') := by
  intro l
  induction l with
  | nil =>
    intro v v' h
    simp only [visitImportsGo, Option.some.injEq, Except.ok.injEq] at h
    subst h
    exact ⟨fun x hx hnx => absurd hx hnx, fun imp him => absurd him (List.not_mem_nil imp)⟩
  | cons imp rest ih =>
    intro v v' h
    simp only [visitImportsGo] at h
    cases hres : resolveImport fs base imp with
    | none =>
      simp only [hres] at h
      obtain ⟨hA, hB⟩ := ih v v' h
      refine ⟨hA, ?_⟩
      intro imp' him' q hq
      rcases List.mem_cons.mp him' with he | hm
      · subst he
        rw [hres] at hq
        exact absurd hq (by simp)
      · exact hB imp' hm q hq
    | some q =>
      simp only [hres] at h
      cases hq : visit v q with
      | none => simp [hq] at h
      | some r =>
        cases r with
        | error e => simp [hq] at h
        | ok v2 =>
          simp only [hq] at h
          obtain ⟨hA, hB⟩ := ih v2 v' h
          have hsub : v2 ⊆ v' := visitImportsGo_mono hmono rest v2 v' h
          refine ⟨?_, ?_⟩
          · intro x hx hnx
            by_cases hx2 : x ∈ v2
            · exact processed_mono (hclos v q v2 hq x hx2 hnx) hsub
            · exact hA x hx hx2
          · intro imp' him' q' hq'
            rcases List.mem_cons.mp him' with he | hm
            · subst he
              rw [hres] at hq'
              have hqq : q' = q := by simpa using hq'.symm
              subst hqq
              exact hsub (hroot v q' v2 hq
                (existsP_of_mem_files (resolveImport_mem_files hres)))
            · exact hB imp' hm q' hq'

theorem visitFile_closure (fs : FS) :
    ∀ (n : Nat) (v : List MPath) (p : MPath) (v' : List MPath),
      visitFile fs n v p = some (Except.ok v') →
      ∀ x ∈ v', x ∉ v → Processed fs v' x := by
  intro n
  induction n with
  | zero =>
    intro v p v' h
    simp [visitFile_zero] at h
  | succ n ih =>
    intro v p v' h x hx hnx
    rw [visitFile_succ] at h
    unfold visitStep at h
    by_cases h1 : p ∈ v
    · simp only [if_pos h1, Option.some.injEq, Except.ok.injEq] at h
      subst h
      exact absurd hx hnx
    · rw [if_neg h1] at h
      by_cases h2 : existsP fs p = false
      · simp only [if_pos h2, Option.some.injEq, Except.ok.injEq] at h
        subst h
        exact absurd hx hnx
      · rw [if_neg h2] at h
        by_cases h3 : fs.readOk p
        · rw [if_pos h3] at h
          obtain ⟨hA, hB⟩ := visitImportsGo_closure
            (fun v q v' hh => visitFile_mono fs n v q v' hh)
            (fun v q v' hh hex => visitFile_visits_root fs n v q v' hh hex)
            (fun v q v' hh => ih v q v' hh) _ _ _ h
          by_cases hxp : x = p
          · subst hxp
            exact ⟨h3, fun imp him q hq => hB imp him q hq⟩
          · exact hA x hx (by simp [hxp, hnx])
        · simp only [if_neg h3] at h
          simp at h

theorem visitImportsGo_nodup {fs : FS}
    {visit : List MPath → MPath → Option (Except String (List MPath))} {base : MPath}
    (hnd : ∀ v q v', v.Nodup → visit v q = some (Except.ok v') → v'.Nodup) :
    ∀ (l : List String) (v v' : List MPath), v.Nodup →
      visitImportsGo fs visit base v l = some (Except.ok v') → v'.Nodup := by
  intro l
  induction l with
  | nil =>
    intro v v' hv h
    simp only [visitImportsGo, Option.some.injEq, Except.ok.injEq] at h
    subst h
    exact hv
  | cons imp rest ih =>
    intro v v' hv h
    simp only [visitImportsGo] at h
    cases hres : resolveImport fs base imp with
    | none =>
      simp only [hres] at h
      exact ih v v' hv h
    | some q =>
      simp only [hres] at h
      cases hq : visit v q with
      | none => simp [hq] at h
      | some r =>
        cases r with
        | error e => simp [hq] at h
        | ok v2 =>
          simp only [hq] at h
          exact ih v2 v' (hnd v q v2 hv hq) h

theorem visitFile_nodup (fs : FS) :
    ∀ (n : Nat) (v : List MPath) (p : MPath) (v' : List MPath), v.Nodup →
      visitFile fs n v p = some (Except.ok v') → v'.Nodup := by
  intro n
  induction n with
  | zero =>
    intro v p v' hv h
    simp [visitFile_zero] at h
  | succ n ih =>
    intro v p v' hv h
    rw [visitFile_succ] at h
    unfold visitStep at h
    by_cases h1 : p ∈ v
    · simp only [if_pos h1, Option.some.injEq, Except.ok.injEq] at h
      subst h
      exact hv
    · rw [if_neg h1] at h
      by_cases h2 : existsP fs p = false
      · simp only [if_pos h2, Option.some.injEq, Except.ok.injEq] at h
        subst h
        exact hv
      · rw [if_neg h2] at h
        by_cases h3 : fs.readOk p
        · rw [if_pos h3] at h
          exact visitImportsGo_nodup (fun v q v' hev hh => ih v q v' hev hh) _ _ _
            (List.nodup_cons.mpr ⟨h1, hv⟩) h
        · simp only [if_neg h3] at h
          simp at h

/-- The number of existing paths not yet visited: the termination measure of
the traversal. -/
def unseen (fs : FS) (v : List MPath) : Nat :=
  ((fs.files ++ fs.dirs).toFinset \ v.toFinset).card

theorem unseen_le (fs : FS) (v : List MPath) :
    unseen fs v ≤ (fs.files ++ fs.dirs).length := by
  calc ((fs.files ++ fs.dirs).toFinset \ v.toFinset).card
      ≤ (fs.files ++ fs.dirs).toFinset.card :=
        Finset.card_le_card (Finset.sdiff_subset)
    _ ≤ (fs.files ++ fs.dirs).length := List.toFinset_card_le _

theorem unseen_mono {fs : FS} {v v' : List MPath} (h : v ⊆ v') :
    unseen fs v' ≤ unseen fs v := by
  apply Finset.card_le_card
  apply Finset.sdiff_subset_sdiff (Finset.Subset.refl _)
  intro x hx
  rw [List.mem_toFinset] at hx ⊢
  exact h hx

theorem unseen_cons_lt {fs : FS} {v : List MPath} {p : MPath}
    (hex : existsP fs p = true) (hnp : p ∉ v) : unseen fs (p :: v) < unseen fs v := by
  apply Finset.card_lt_card
  have hsub : (fs.files ++ fs.dirs).toFinset \ (p :: v).toFinset ⊆
      (fs.files ++ fs.dirs).toFinset \ v.toFinset := by
    apply Finset.sdiff_subset_sdiff (Finset.Subset.refl _)
    intro x hx
    rw [List.mem_toFinset] at hx ⊢
    exact List.mem_cons_of_mem _ hx
  rw [Finset.ssubset_iff_of_subset hsub]
  refine ⟨p, ?_, ?_⟩
  · rw [Finset.mem_sdiff, List.mem_toFinset, List.mem_toFinset, List.mem_append]
    constructor
    · simp [existsP] at hex
      exact hex
    · exact hnp
  · rw [Finset.mem_sdiff, List.mem_toFinset]
    intro hc
    exact hc.2 (List.mem_toFinset.mpr (List.mem_cons_self p v))

theorem visitImportsGo_not_none {fs : FS}
    {visit : List MPath → MPath → Option (Except String (List MPath))} {base : MPath}
    {U : Nat}
    (hmono : ∀ v q v', visit v q = some (Except.ok v') → v ⊆ v')
    (hnn : ∀ v q, unseen fs v ≤ U → visit v q ≠ none) :
    ∀ (l : List String) (v : List MPath), unseen fs v ≤ U →
      visitImportsGo fs visit base v l ≠ none := by
  intro l
  induction l with
  | nil =>
    intro v hu
    simp [visitImportsGo]
  | cons imp rest ih =>
    intro v hu
    simp only [visitImportsGo]
    cases hres : resolveImport fs base imp with
    | none => exact ih v hu
    | some q =>
      cases hq : visit v q with
      | none => exact absurd hq (hnn v q hu)
      | some r =>
        cases r with
        | error e => simp [hq]
        | ok v2 =>
          simp only [hq]
          exact ih v2 (le_trans (unseen_mono (hmono v q v2 hq)) hu)

theorem visitFile_not_none (fs : FS) :
    ∀ (n : Nat) (v : List MPath) (p : MPath), unseen fs v < n →
      visitFile fs n v p ≠ none := by
  intro n
  induction n with
  | zero =>
    intro v p h
    omega
  | succ n ih =>
    intro v p h
    rw [visitFile_succ]
    unfold visitStep
    by_cases h1 : p ∈ v
    · simp [h1]
    · rw [if_neg h1]
      by_cases h2 : existsP fs p = false
      · simp [h2]
      · rw [if_neg h2]
        by_cases h3 : fs.readOk p
        · rw [if_pos h3]
          have hex : existsP fs p = true := by
            cases hb : existsP fs p
            · exact absurd hb h2
            · rfl
          have hlt : unseen fs (p :: v) < unseen fs v := unseen_cons_lt hex h1
          apply visitImportsGo_not_none (U := unseen fs (p :: v))
            (fun v q v' hh => visitFile_mono fs n v q v' hh)
          · intro v'' q hle
            exact ih v'' q (by omega)
          · exact le_refl _
        · simp [h3]

theorem totalFuel_adequate (fs : FS) (v : List MPath) (p : MPath) :
    visitFile fs (totalFuel fs) v p ≠ none := by
  apply visitFile_not_none
  have := unseen_le fs v
  simp only [totalFuel]
  omega

theorem visitImportsGo_some_congr {fs : FS} {base : MPath}
    {visit visit' : List MPath → MPath → Option (Except String (List MPath))}
    (hvv : ∀ v q r, visit v q = some r → visit' v q = some r) :
    ∀ (l : List String) (v : List MPath) (r : Except String (List MPath)),
      visitImportsGo fs visit base v l = some r →
      visitImportsGo fs visit' base v l = some r := by
  intro l
  induction l with
  | nil =>
    intro v r h
    exact h
  | cons imp rest ih =>
    intro v r h
    simp only [visitImportsGo] at h ⊢
    cases hres : resolveImport fs base imp with
    | none =>
      simp only [hres] at h ⊢
      exact ih v r h
    | some q =>
      simp only [hres] at h ⊢
      cases hq : visit v q with
      | none => simp [hq] at h
      | some rr =>
        rw [hvv v q rr hq]
        cases rr with
        | error e =>
          simp only [hq] at h
          exact h
        | ok v2 =>
          simp only [hq] at h
          exact ih v2 r h

theorem visitFile_step_mono (fs : FS) :
    ∀ (n : Nat) (v : List MPath) (p : MPath) (r : Except String (List MPath)),
      visitFile fs n v p = some r → visitFile fs (n + 1) v p = some r := by
  intro n
  induction n with
  | zero =>
    intro v p r h
    simp [visitFile_zero] at h
  | succ n ih =>
    intro v p r h
    rw [visitFile_succ] at h ⊢
    unfold visitStep at h ⊢
    by_cases h1 : p ∈ v
    · simpa [h1] using h
    · rw [if_neg h1] at h ⊢
      by_cases h2 : existsP fs p = false
      · simpa [h2] using h
      · rw [if_neg h2] at h ⊢
        by_cases h3 : fs.readOk p
        · rw [if_pos h3] at h ⊢
          exact visitImportsGo_some_congr (fun v q r hh => ih v q r hh) _ _ _ h
        · rw [if_neg h3] at h ⊢
          exact h

theorem visitFile_fuel_mono (fs : FS) {n m : Nat} (hnm : n ≤ m) :
    ∀ (v : List MPath) (p : MPath) (r : Except String (List MPath)),
      visitFile fs n v p = some r → visitFile fs m v p = some r := by
  induction hnm with
  | refl => intro v p r h; exact h
  | step h ih =>
    intro v p r hh
    exact visitFile_step_mono fs _ v p r (ih v p r hh)

theorem visitFile_run_some (fs : FS) (v : List MPath) (p : MPath) :
    visitFile fs (totalFuel fs) v p = some (visitFileRun fs v p) := by
  cases h : visitFile fs (totalFuel fs) v p with
  | none => exact absurd h (totalFuel_adequate fs v p)
  | some r =>
    unfold visitFileRun
    rw [h]
    rfl

theorem visitFile_stable (fs : FS) {n : Nat} (h : totalFuel fs ≤ n)
    (v : List MPath) (p : MPath) :
    visitFile fs n v p = visitFile fs (totalFuel fs) v p := by
  rw [visitFile_run_some fs v p]
  exact visitFile_fuel_mono fs h v p _ (visitFile_run_some fs v p)

theorem visitFileRun_mono {fs : FS} {v : List MPath} {p : MPath} {v' : List MPath}
    (h : visitFileRun fs v p = Except.ok v') : v ⊆ v' := by
  have hs := visitFile_run_some fs v p
  rw [h] at hs
  exact visitFile_mono fs _ v p v' hs

theorem visitFileRun_visits_root {fs : FS} {v : List MPath} {p : MPath} {v' : List MPath}
    (h : visitFileRun fs v p = Except.ok v') (hex : existsP fs p = true) : p ∈ v' := by
  have hs := visitFile_run_some fs v p
  rw [h] at hs
  exact visitFile_visits_root fs _ v p v' hs hex

theorem visitFileRun_sound {fs : FS} {v : List MPath} {p : MPath} {v' : List MPath}
    (h : visitFileRun fs v p = Except.ok v') : ∀ x ∈ v', x ∈ v ∨ ReachFrom fs p x := by
  have hs := visitFile_run_some fs v p
  rw [h] at hs
  exact visitFile_sound fs _ v p v' hs

theorem visitFileRun_closure {fs : FS} {v : List MPath} {p : MPath} {v' : List MPath}
    (h : visitFileRun fs v p = Except.ok v') : ∀ x ∈ v', x ∉ v → Processed fs v' x := by
  have hs := visitFile_run_some fs v p
  rw [h] at hs
  exact visitFile_closure fs _ v p v' hs

theorem visitFileRun_nodup {fs : FS} {v : List MPath} {p : MPath} {v' : List MPath}
    (hv : v.Nodup) (h : visitFileRun fs v p = Except.ok v') : v'.Nodup := by
  have hs := visitFile_run_some fs v p
  rw [h] at hs
  exact visitFile_nodup fs _ v p v' hv hs

theorem traverseEntries_mono {fs : FS} {src : String} :
    ∀ (es : List String) (v V : List MPath),
      traverseEntries fs src es v = Except.ok V → v ⊆ V := by
  intro es
  induction es with
  | nil =>
    intro v V h
    simp only [traverseEntries, Except.ok.injEq] at h
    subst h
    exact List.Subset.refl v
  | cons e rest ih =>
    intro v V h
    simp only [traverseEntries] at h
    by_cases hex : existsP fs (entryPath src e)
    · rw [if_pos hex] at h
      cases hr : visitFileRun fs v (entryPath src e) with
      | error err => rw [hr] at h; simp at h
      | ok v2 =>
        rw [hr] at h
        exact List.Subset.trans (visitFileRun_mono hr) (ih v2 V h)
    · rw [if_neg hex] at h
      exact ih v V h

theorem traverseEntries_entry_mem {fs : FS} {src : String} :
    ∀ (es : List String) (v V : List MPath),
      traverseEntries fs src es v = Except.ok V →
      ∀ e ∈ es, existsP fs (entryPath src e) = true → entryPath src e ∈ V := by
  intro es
  induction es with
  | nil =>
    intro v V h e he
    exact absurd he (List.not_mem_nil e)
  | cons e0 rest ih =>
    intro v V h e he hex
    simp only [traverseEntries] at h
    rcases List.mem_cons.mp he with heq | hm
    · subst heq
      rw [if_pos hex] at h
      cases hr : visitFileRun fs v (entryPath src e) with
      | error err => rw [hr] at h; simp at h
      | ok v2 =>
        rw [hr] at h
        exact traverseEntries_mono rest v2 V h (visitFileRun_visits_root hr hex)
    · by_cases hex0 : existsP fs (entryPath src e0)
      · rw [if_pos hex0] at h
        cases hr : visitFileRun fs v (entryPath src e0) with
        | error err => rw [hr] at h; simp at h
        | ok v2 =>
          rw [hr] at h
          exact ih v2 V h e hm hex
      · rw [if_neg hex0] at h
        exact ih v V h e hm hex

theorem traverseEntries_sound {fs : FS} {src : String} :
    ∀ (es : List String) (v V : List MPath),
      traverseEntries fs src es v = Except.ok V →
      ∀ x ∈ V, x ∈ v ∨ ∃ e ∈ es, existsP fs (entryPath src e) = true ∧
        ReachFrom fs (entryPath src e) x := by
  intro es
  induction es with
  | nil =>
    intro v V h x hx
    simp only [traverseEntries, Except.ok.injEq] at h
    subst h
    exact Or.inl hx
  | cons e0 rest ih =>
    intro v V h x hx
    simp only [traverseEntries] at h
    by_cases hex : existsP fs (entryPath src e0)
    · rw [if_pos hex] at h
      cases hr : visitFileRun fs v (entryPath src e0) with
      | error err => rw [hr] at h; simp at h
      | ok v2 =>
        rw [hr] at h
        rcases ih v2 V h x hx with hm | ⟨e, hme, hexe, hre⟩
        · rcases visitFileRun_sound hr x hm with hm' | hre
          · exact Or.inl hm'
          · exact Or.inr ⟨e0, List.mem_cons_self _ _, hex, hre⟩
        · exact Or.inr ⟨e, List.mem_cons_of_mem _ hme, hexe, hre⟩
    · rw [if_neg hex] at h
      rcases ih v V h x hx with hm | ⟨e, hme, hexe, hre⟩
      · exact Or.inl hm
      · exact Or.inr ⟨e, List.mem_cons_of_mem _ hme, hexe, hre⟩

theorem traverseEntries_closed {fs : FS} {src : String} :
    ∀ (es : List String) (v V : List MPath), SelfClosed fs v →
      traverseEntries fs src es v = Except.ok V → SelfClosed fs V := by
  intro es
  induction es with
  | nil =>
    intro v V hc h
    simp only [traverseEntries, Except.ok.injEq] at h
    subst h
    exact hc
  | cons e0 rest ih =>
    intro v V hc h
    simp only [traverseEntries] at h
    by_cases hex : existsP fs (entryPath src e0)
    · rw [if_pos hex] at h
      cases hr : visitFileRun fs v (entryPath src e0) with
      | error err => rw [hr] at h; simp at h
      | ok v2 =>
        rw [hr] at h
        apply ih v2 V _ h
        intro x hx
        by_cases hxv : x ∈ v
        · exact processed_mono (hc x hxv) (visitFileRun_mono hr)
        · exact visitFileRun_closure hr x hx hxv
    · rw [if_neg hex] at h
      exact ih v V hc h

theorem traverseEntries_nodup {fs : FS} {src : String} :
    ∀ (es : List String) (v V : List MPath), v.Nodup →
      traverseEntries fs src es v = Except.ok V → V.Nodup := by
  intro es
  induction es with
  | nil =>
    intro v V hv h
    simp only [traverseEntries, Except.ok.injEq] at h
    subst h
    exact hv
  | cons e0 rest ih =>
    intro v V hv h
    simp only [traverseEntries] at h
    by_cases hex : existsP fs (entryPath src e0)
    · rw [if_pos hex] at h
      cases hr : visitFileRun fs v (entryPath src e0) with
      | error err => rw [hr] at h; simp at h
      | ok v2 =>
        rw [hr] at h
        exact ih v2 V (visitFileRun_nodup hv hr) h
    · rw [if_neg hex] at h
      exact ih v V hv h

/-- Build a filesystem fixture from lists: the regular files, directories, an
association list of extracted import strings, and the paths whose read fails. -/
def fsMk (files dirs : List MPath) (imps : List (MPath × List String))
    (bad : List MPath) : FS :=
  { files := files, dirs := dirs,
    readOk := fun p => decide (p ∉ bad),
    fileImports := fun p => ((imps.find? (fun pr => decide (pr.1 = p))).map Prod.snd).getD [],
    readErr := fun _ => "Permission denied" }

/-- Example tree: `src/main.tsx` imports `./a` (and the external `react`),
`src/a.ts` imports nothing, `src/dead.ts` is orphaned. `App.tsx` is configured
but absent. -/
def fsEx : FS :=
  fsMk [["src", "main.tsx"], ["src", "a.ts"], ["src", "dead.ts"]] [["src"]]
    [(["src", "main.tsx"], ["./a", "react"]),
     (["src", "a.ts"], []),
     (["src", "dead.ts"], ["./a"])] []

/-- The visited set the traversal computes on `fsEx`. -/
def exVisited : List MPath := [["src", "a.ts"], ["src", "main.tsx"]]

/-- Cyclic tree: `src/x.ts` imports `./y` and `src/y.ts` imports `./x`. -/
def cycleFS : FS :=
  fsMk [["src", "x.ts"], ["src", "y.ts"]] [["src"]]
    [(["src", "x.ts"], ["./y"]), (["src", "y.ts"], ["./x"])] []

/-- Configuration whose sole entry is `x.ts`. -/
def cycleCfg : Config := { srcDir := "src", entryFiles := ["x.ts"] }

theorem selfClosed_nil (fs : FS) : SelfClosed fs [] :=
  fun x hx => absurd hx (List.not_mem_nil x)

theorem runTraversal_mem_iff {fs : FS} {cfg : Config} {V : List MPath}
    (hrun : runTraversal fs cfg = Except.ok V) (F : MPath) :
    F ∈ V ↔ Reach fs cfg F := by
  constructor
  · intro hF
    rcases traverseEntries_sound cfg.entryFiles [] V hrun F hF with hm | ⟨e, he, hex, hrf⟩
    · exact absurd hm (List.not_mem_nil F)
    · exact ⟨e, he, hex, hrf⟩
  · rintro ⟨e, he, hex, hrf⟩
    have hclosed : SelfClosed fs V :=
      traverseEntries_closed cfg.entryFiles [] V (selfClosed_nil fs) hrun
    induction hrf with
    | refl => exact traverseEntries_entry_mem cfg.entryFiles [] V hrun e he hex
    | step h him hres ih => exact (hclosed _ ih).2 _ him _ hres

/-- C1. A file of the inventory is in the final visited set exactly when a
chain of resolvable relative imports connects some existing configured entry
file to it. -/
theorem claim_C1 (fs : FS) (cfg : Config) (V : List MPath)
    (hrun : runTraversal fs cfg = Except.ok V) :
    ∀ F ∈ getAllSourceFiles fs cfg.srcDir, (F ∈ V ↔ Reach fs cfg F) :=
  fun F _ => runTraversal_mem_iff hrun F

/-- C2. With the adequate fuel the traversal never runs out (it terminates on
every finite tree, cycles included); larger fuels compute the same result; the
visited list stays duplicate-free, so each path is marked at most once; an
already visited path is returned unchanged without reprocessing; and on the
two-file cycle both files end up visited exactly once. -/
theorem claim_C2 :
    (∀ (fs : FS) (v : List MPath) (p : MPath), visitFile fs (totalFuel fs) v p ≠ none) ∧
    (∀ (fs : FS) (n : Nat), totalFuel fs ≤ n → ∀ (v : List MPath) (p : MPath),
      visitFile fs n v p = visitFile fs (totalFuel fs) v p) ∧
    (∀ (fs : FS) (n : Nat) (v : List MPath) (p : MPath) (v' : List MPath), v.Nodup →
      visitFile fs n v p = some (Except.ok v') → v'.Nodup) ∧
    (∀ (fs : FS) (n : Nat) (v : List MPath) (p : MPath), p ∈ v →
      visitFile fs (n + 1) v p = some (Except.ok v)) ∧
    (runTraversal cycleFS cycleCfg = Except.ok [["src", "y.ts"], ["src", "x.ts"]] ∧
      [["src", "y.ts"], ["src", "x.ts"]].Nodup) := by
  refine ⟨totalFuel_adequate, ?_, ?_, ?_, by rfl, by decide⟩
  · intro fs n h v p
    exact visitFile_stable fs h v p
  · intro fs n v p v' hv h
    exact visitFile_nodup fs n v p v' hv h
  · intro fs n v p hp
    rw [visitFile_succ]
    unfold visitStep
    rw [if_pos hp]

/-- C2 witness: the parts with hypotheses, instantiated on the cyclic tree. -/
theorem claim_C2_witness :
    (visitFile cycleFS (totalFuel cycleFS + 1) [] ["src", "x.ts"] =
      visitFile cycleFS (totalFuel cycleFS) [] ["src", "x.ts"]) ∧
    ([["src", "y.ts"], ["src", "x.ts"]].Nodup) ∧
    (visitFile cycleFS 1 [["src", "x.ts"]] ["src", "x.ts"] =
      some (Except.ok [["src", "x.ts"]])) := by
  refine ⟨?_, ?_, ?_⟩
  · exact claim_C2.2.1 cycleFS (totalFuel cycleFS + 1) (by omega) [] ["src", "x.ts"]
  · exact claim_C2.2.2.1 cycleFS (totalFuel cycleFS) []
      ["src", "x.ts"] [["src", "y.ts"], ["src", "x.ts"]] (by decide) (by rfl)
  · exact claim_C2.2.2.2.1 cycleFS 0 [["src", "x.ts"]] ["src", "x.ts"] (by decide)

/-- Tree for the resolution-priority example: `a/c.tsx` exists, `a/c.ts` does
not, and `a/b.ts` imports `./c`. -/
def fsC3 : FS := fsMk [["a", "c.tsx"], ["a", "b.ts"]] [["a"]] [] []

/-- C3. `resolve_import` behaves exactly as specified: null for non-relative
paths, else first existing extension candidate in the fixed order, else first
existing directory-index candidate, else null; and on the example tree the import
`./c` from `a/b.ts` resolves to `a/c.tsx`. -/
theorem claim_C3 :
    (∀ (fs : FS) (base : MPath) (imp : String),
      resolveImport fs base imp = resolveImportSpec fs base imp) ∧
    (∀ (fs : FS) (base : MPath) (imp : String),
      strStartsWith imp "." = false → resolveImport fs base imp = none) ∧
    (resolveImport fsC3 ["a", "b.ts"] "./c" = some ["a", "c.tsx"] ∧
      resolveImport fsC3 ["a", "b.ts"] "react" = none) := by
  refine ⟨resolveImport_eq_spec, ?_, by rfl, by rfl⟩
  intro fs base imp h
  unfold resolveImport
  rw [h]
  simp

/-- Tree where the import target is spelled with its extension: `a/foo.ts`
exists and `a/b.ts` imports `./foo.ts`. -/
def fsC4 : FS := fsMk [["a", "foo.ts"], ["a", "b.ts"]] [["a"]] [] []

/-- Tree where the doubled-extension candidate exists: `a/foo.ts.ts`. -/
def fsC4b : FS := fsMk [["a", "foo.ts.ts"], ["a", "b.ts"]] [["a"]] [] []

/-- C4. Resolution never probes the joined path itself: whenever all eight
probed candidates (the four extension-appended paths and the four directory
indexes) are missing, resolution returns null — even if the joined path is
itself an existing file. On the example, `./foo.ts` fails to resolve although
`a/foo.ts` exists, yet resolves once `a/foo.ts.ts` exists. -/
theorem claim_C4 :
    (∀ (fs : FS) (base : MPath) (imp : String),
      (∀ ext ∈ exts, addExt (joinedPath base imp) ext ∉ fs.files) →
      (∀ ext ∈ exts, joinedPath base imp ++ ["index" ++ ext] ∉ fs.files) →
      resolveImport fs base imp = none) ∧
    (joinedPath ["a", "b.ts"] "./foo.ts" = ["a", "foo.ts"] ∧
      ["a", "foo.ts"] ∈ fsC4.files ∧
      resolveImport fsC4 ["a", "b.ts"] "./foo.ts" = none) ∧
    (resolveImport fsC4b ["a", "b.ts"] "./foo.ts" = some ["a", "foo.ts.ts"]) := by
  refine ⟨?_, ⟨by rfl, by decide, by rfl⟩, by rfl⟩
  intro fs base imp h1 h2
  exact resolveImport_none_of_no_candidate h1 h2

/-- C4 witness: the general null-resolution clause instantiated on the
already-extended import of the example tree. -/
theorem claim_C4_witness : resolveImport fsC4 ["a", "b.ts"] "./foo.ts" = none :=
  claim_C4.1 fsC4 ["a", "b.ts"] "./foo.ts" (by decide) (by decide)

/-- C1 witness: on the example tree the reached file `src/a.ts` satisfies the
membership-reachability equivalence. -/
theorem claim_C1_witness :
    ["src", "a.ts"] ∈ exVisited ↔ Reach fsEx defaultConfig ["src", "a.ts"] :=
  claim_C1 fsEx defaultConfig exVisited (by rfl) ["src", "a.ts"] (by decide)

theorem charListLe_cons_iff {a b : Char} {as bs : List Char} :
    charListLe (a :: as) (b :: bs) = true ↔
      a < b ∨ (a = b ∧ charListLe as bs = true) := by
  by_cases h1 : a < b
  · simp [charListLe, h1]
  · by_cases h2 : b < a
    · have hne : a ≠ b := fun he => absurd (he ▸ h2) (lt_irrefl a)
      simp [charListLe, h1, h2, hne]
    · have hab : a = b := le_antisymm (not_lt.mp h2) (not_lt.mp h1)
      simp [charListLe, h1, h2, hab]

theorem charListLe_total : ∀ (a b : List Char),
    charListLe a b = true ∨ charListLe b a = true
  | [], _ => Or.inl rfl
  | _ :: _, [] => Or.inr rfl
  | a :: as, b :: bs => by
    rcases lt_trichotomy a b with h | h | h
    · exact Or.inl (charListLe_cons_iff.mpr (Or.inl h))
    · rcases charListLe_total as bs with ht | ht
      · exact Or.inl (charListLe_cons_iff.mpr (Or.inr ⟨h, ht⟩))
      · exact Or.inr (charListLe_cons_iff.mpr (Or.inr ⟨h.symm, ht⟩))
    · exact Or.inr (charListLe_cons_iff.mpr (Or.inl h))

theorem charListLe_trans : ∀ (a b c : List Char),
    charListLe a b = true → charListLe b c = true → charListLe a c = true
  | [], _, _, _, _ => rfl
  | _ :: _, [], _, h, _ => by simp [charListLe] at h
  | _ :: _, _ :: _, [], _, h => by simp [charListLe] at h
  | a :: as, b :: bs, c :: cs, h1, h2 => by
    rcases charListLe_cons_iff.mp h1 with hab | ⟨hab, hta⟩
    · rcases charListLe_cons_iff.mp h2 with hbc | ⟨hbc, htb⟩
      · exact charListLe_cons_iff.mpr (Or.inl (lt_trans hab hbc))
      · exact charListLe_cons_iff.mpr (Or.inl (hbc ▸ hab))
    · rcases charListLe_cons_iff.mp h2 with hbc | ⟨hbc, htb⟩
      · exact charListLe_cons_iff.mpr (Or.inl (hab ▸ hbc))
      · exact charListLe_cons_iff.mpr
          (Or.inr ⟨hab.trans hbc, charListLe_trans as bs cs hta htb⟩)

theorem charListLe_antisymm : ∀ (a b : List Char),
    charListLe a b = true → charListLe b a = true → a = b
  | [], [], _, _ => rfl
  | [], _ :: _, _, h => by simp [charListLe] at h
  | _ :: _, [], h, _ => by simp [charListLe] at h
  | a :: as, b :: bs, h1, h2 => by
    rcases charListLe_cons_iff.mp h1 with hab | ⟨hab, hta⟩
    · rcases charListLe_cons_iff.mp h2 with hba | ⟨hba, htb⟩
      · exact absurd hba (lt_asymm hab)
      · exact absurd (hba ▸ hab) (lt_irrefl b)
    · rw [hab, charListLe_antisymm as bs hta (by
        rcases charListLe_cons_iff.mp h2 with hba | ⟨_, htb⟩
        · exact absurd (hab ▸ hba) (lt_irrefl b)
        · exact htb)]

theorem strLeP_total : ∀ (s t : String), StrLeP s t ∨ StrLeP t s :=
  fun s t => charListLe_total s.data t.data

theorem strLeP_trans : ∀ (a b c : String), StrLeP a b → StrLeP b c → StrLeP a c :=
  fun a b c h1 h2 => charListLe_trans a.data b.data c.data h1 h2

theorem strLeP_antisymm : ∀ (a b : String), StrLeP a b → StrLeP b a → a = b := by
  intro a b h1 h2
  cases a with
  | mk d1 =>
    cases b with
    | mk d2 =>
      have : d1 = d2 := charListLe_antisymm d1 d2 h1 h2
      rw [this]

instance : IsTotal String StrLeP := ⟨strLeP_total⟩

instance : IsTrans String StrLeP := ⟨strLeP_trans⟩

instance : IsAntisymm String StrLeP := ⟨strLeP_antisymm⟩

theorem foldl_append_newline (l : List String) (acc : String) :
    l.foldl (fun a s => a ++ s ++ "\n") acc =
      acc ++ strConcat (l.map (fun s => s ++ "\n")) := by
  induction l generalizing acc with
  | nil => simp [strConcat, String.append_empty]
  | cons s rest ih =>
    simp only [List.foldl_cons, List.map_cons, strConcat]
    rw [ih]
    rw [← String.append_assoc, ← String.append_assoc]

/-- C6. A configured entry file whose path does not exist on disk starts no
traversal and raises no error: the loop iteration is a no-op and processing
continues with the remaining entries; on the example tree the missing
`App.tsx` entry is skipped and the run still succeeds. -/
theorem claim_C6 :
    (∀ (fs : FS) (src e : String) (rest : List String) (v : List MPath),
      existsP fs (entryPath src e) = false →
      traverseEntries fs src (e :: rest) v = traverseEntries fs src rest v) ∧
    (existsP fsEx (entryPath "src" "App.tsx") = false ∧
      runTraversal fsEx defaultConfig = Except.ok exVisited) := by
  refine ⟨?_, by decide, by rfl⟩
  intro fs src e rest v h
  simp only [traverseEntries]
  rw [if_neg (by simp [h])]

/-- C6 witness: skipping the missing `App.tsx` entry on the example tree. -/
theorem claim_C6_witness :
    traverseEntries fsEx "src" ["App.tsx"] exVisited =
      traverseEntries fsEx "src" [] exVisited :=
  claim_C6.1 fsEx "src" "App.tsx" [] exVisited (by decide)

/-- C7. The used-files listing is a deterministic function of the tree: two
successful runs of the traversal produce byte-identical `used_files.md`
contents; the listing is the visited set sorted lexicographically (sorted and
a permutation of the visited paths' strings), one newline-terminated path per
line. -/
theorem claim_C7 :
    (∀ (fs : FS) (cfg : Config) (V V' : List MPath),
      runTraversal fs cfg = Except.ok V → runTraversal fs cfg = Except.ok V' →
      usedFilesContent V = usedFilesContent V') ∧
    (∀ V : List MPath, List.Sorted StrLeP (usedLines V)) ∧
    (∀ V : List MPath, (usedLines V).Perm (V.map pathToString)) ∧
    (∀ V : List MPath,
      usedFilesContent V = strConcat ((usedLines V).map (fun s => s ++ "\n"))) := by
  refine ⟨?_, ?_, ?_, ?_⟩
  · intro fs cfg V V' h1 h2
    have h3 : Except.ok (ε := String) V = Except.ok V' := h1.symm.trans h2
    simp only [Except.ok.injEq] at h3
    rw [h3]
  · intro V
    exact List.sorted_insertionSort StrLeP _
  · intro V
    exact List.perm_insertionSort StrLeP _
  · intro V
    unfold usedFilesContent
    rw [foldl_append_newline]
    simp

/-- C7 witness: the determinism clause on the example tree's run. -/
theorem claim_C7_witness : usedFilesContent exVisited = usedFilesContent exVisited :=
  claim_C7.1 fsEx defaultConfig exVisited exVisited (by rfl) (by rfl)

/-- Tree of the unused-set scenario: `src/a.ts` imports `./b`, `src/b.ts` and
the orphaned `src/c.ts` import nothing; the sole entry is `a.ts`. -/
def fs8 : FS :=
  fsMk [["src", "a.ts"], ["src", "b.ts"], ["src", "c.ts"]] [["src"]]
    [(["src", "a.ts"], ["./b"]), (["src", "b.ts"], []), (["src", "c.ts"], [])] []

/-- Configuration for the unused-set scenario. -/
def cfg8 : Config := { srcDir := "src", entryFiles := ["a.ts"] }

/-- The visited set the traversal computes on `fs8`. -/
def v8 : List MPath := [["src", "b.ts"], ["src", "a.ts"]]

/-- C8. The unused set is exactly the inventory minus the visited set (it is
derived by filtering, never separately mutated), the printed counts are the
sizes of the inventory, the visited set and that difference; and on the
three-file scenario with `c.ts` orphaned the unused set is `{c.ts}` with
counts Total=3, Used=2, Unused=1. -/
theorem claim_C8 :
    (∀ (fs : FS) (src : String) (V : List MPath) (f : MPath),
      f ∈ unusedFiles fs src V ↔ f ∈ getAllSourceFiles fs src ∧ f ∉ V) ∧
    (∀ (fs : FS) (src : String) (V : List MPath),
      totalCount fs src = (getAllSourceFiles fs src).length ∧
      usedCount V = V.length ∧
      unusedCount fs src V = (unusedFiles fs src V).length) ∧
    (runTraversal fs8 cfg8 = Except.ok v8 ∧
      getAllSourceFiles fs8 "src" = [["src", "a.ts"], ["src", "b.ts"], ["src", "c.ts"]] ∧
      unusedFiles fs8 "src" v8 = [["src", "c.ts"]] ∧
      totalCount fs8 "src" = 3 ∧ usedCount v8 = 2 ∧ unusedCount fs8 "src" v8 = 1) := by
  refine ⟨?_, ?_, by rfl, by rfl, by rfl, by rfl, by rfl, by rfl⟩
  · intro fs src V f
    simp [unusedFiles, List.mem_filter]
  · intro fs src V
    exact ⟨rfl, rfl, rfl⟩

/-- Tree with an unreadable file: `src/m.ts` imports `./u`, and reading
`src/u.ts` raises. -/
def fsC5 : FS :=
  fsMk [["src", "m.ts"], ["src", "u.ts"]] [["src"]]
    [(["src", "m.ts"], ["./u"]), (["src", "u.ts"], [])] [["src", "u.ts"]]

/-- Configuration whose sole entry is `m.ts`. -/
def cfgC5 : Config := { srcDir := "src", entryFiles := ["m.ts"] }

/-- A visited-set snapshot holding both files of `fsC5`. -/
def v5 : List MPath := [["src", "m.ts"], ["src", "u.ts"]]

theorem strConcat_append : ∀ (xs ys : List String),
    strConcat (xs ++ ys) = strConcat xs ++ strConcat ys := by
  intro xs ys
  induction xs with
  | nil => simp [strConcat]
  | cons s rest ih =>
    show s ++ strConcat (rest ++ ys) = s ++ strConcat rest ++ strConcat ys
    rw [ih, String.append_assoc]

theorem foldl_append_map {α : Type} (g : α → String) :
    ∀ (l : List α) (acc : String),
      l.foldl (fun a x => a ++ g x) acc = acc ++ strConcat (l.map g) := by
  intro l
  induction l with
  | nil =>
    intro acc
    simp [strConcat, String.append_empty]
  | cons x rest ih =>
    intro acc
    simp only [List.foldl_cons, List.map_cons, strConcat]
    rw [ih, String.append_assoc]

theorem mem_sortPaths {V : List MPath} {f : MPath} (h : f ∈ V) : f ∈ sortPaths V :=
  (List.perm_insertionSort _ V).mem_iff.mpr h

theorem directReport_aux_error {fs : FS} {V : List MPath} :
    ∀ (l : List MPath) (acc : String), (∃ f ∈ l, fs.readOk f = false) →
      ∃ e, l.foldlM (fun acc f => (directSection fs V f).map (fun s => acc ++ s)) acc =
        Except.error e := by
  intro l
  induction l with
  | nil =>
    intro acc h
    obtain ⟨f, hf, _⟩ := h
    exact absurd hf (List.not_mem_nil f)
  | cons g rest ih =>
    intro acc h
    by_cases hg : fs.readOk g
    · obtain ⟨f, hf, hrf⟩ := h
      have hfr : f ∈ rest := by
        rcases List.mem_cons.mp hf with he | hm
        · subst he
          exact absurd hg (by simp [hrf])
        · exact hm
      obtain ⟨e, he⟩ := ih (acc ++ ("## " ++ pathToString g ++ "\n" ++
        strConcat ((directTargets fs V g).map (fun r => "- " ++ pathToString r ++ "\n")) ++
        "\n")) ⟨f, hfr, hrf⟩
      refine ⟨e, ?_⟩
      simp only [List.foldlM, directSection, if_pos hg]
      exact he
    · refine ⟨fs.readErr g, ?_⟩
      simp only [List.foldlM, directSection, if_neg hg]
      rfl

theorem twoLevelsReport_eq_concat (fs : FS) (V : List MPath) :
    twoLevelsReport fs V = strConcat ((sortPaths V).map (twoLevelSection fs V)) := by
  unfold twoLevelsReport
  rw [foldl_append_map]
  simp

/-- C5. An unreadable file is fatal during traversal (the error propagates out
of `visit_file`) and during the direct-imports report (the whole report run
returns the error), while during the two-level report it is caught: the
section for the unreadable file renders the inline error bullet and the report
is the concatenation of every sorted visited file's section, so the remaining
files are still reported. On the example with unreadable `src/u.ts`, the
traversal and the direct report abort with the error while the two-level
report returns the full rendered string. -/
theorem claim_C5 :
    (∀ (fs : FS) (n : Nat) (v : List MPath) (p : MPath), p ∉ v →
      existsP fs p = true → fs.readOk p = false →
      visitFile fs (n + 1) v p = some (Except.error (fs.readErr p))) ∧
    (∀ (fs : FS) (V : List MPath), (∃ f ∈ V, fs.readOk f = false) →
      ∃ e, directImportsReport fs V = Except.error e) ∧
    (∀ (fs : FS) (V : List MPath) (f : MPath), fs.readOk f = false →
      twoLevelSection fs V f = "## " ++ pathToString f ++ "\n" ++
        ("- [Error reading " ++ pathToString f ++ ": " ++ fs.readErr f ++ "]\n") ++ "\n") ∧
    (∀ (fs : FS) (V : List MPath) (f : MPath), f ∈ V →
      ∃ pre post, twoLevelsReport fs V = pre ++ twoLevelSection fs V f ++ post) ∧
    (runTraversal fsC5 cfgC5 = Except.error "Permission denied" ∧
      directImportsReport fsC5 v5 = Except.error "Permission denied" ∧
      twoLevelsReport fsC5 v5 =
        "## src/m.ts\n- src/u.ts\n    - [Error reading src/u.ts: Permission denied]\n\n" ++
        "## src/u.ts\n- [Error reading src/u.ts: Permission denied]\n\n") := by
  refine ⟨?_, ?_, ?_, ?_, by rfl, by rfl, by rfl⟩
  · intro fs n v p hnv hex hread
    rw [visitFile_succ]
    unfold visitStep
    rw [if_neg hnv, if_neg (by simp [hex]), if_neg (by simp [hread])]
  · intro fs V ⟨f, hf, hrf⟩
    exact directReport_aux_error (sortPaths V) "" ⟨f, mem_sortPaths hf, hrf⟩
  · intro fs V f hread
    simp [twoLevelSection, hread]
  · intro fs V f hf
    obtain ⟨l1, l2, hsplit⟩ := List.append_of_mem (mem_sortPaths hf)
    refine ⟨strConcat (l1.map (twoLevelSection fs V)),
      strConcat (l2.map (twoLevelSection fs V)), ?_⟩
    rw [twoLevelsReport_eq_concat, hsplit]
    rw [List.map_append, strConcat_append, List.map_cons]
    simp only [strConcat]
    rw [String.append_assoc]

/-- C5 witness: the hypothesis-bearing clauses instantiated on the tree with
the unreadable `src/u.ts`. -/
theorem claim_C5_witness :
    (visitFile fsC5 (3 + 1) [["src", "m.ts"]] ["src", "u.ts"] =
      some (Except.error (fsC5.readErr ["src", "u.ts"]))) ∧
    (∃ e, directImportsReport fsC5 v5 = Except.error e) ∧
    (twoLevelSection fsC5 v5 ["src", "u.ts"] =
      "## " ++ pathToString ["src", "u.ts"] ++ "\n" ++
        ("- [Error reading " ++ pathToString ["src", "u.ts"] ++ ": " ++
          fsC5.readErr ["src", "u.ts"] ++ "]\n") ++ "\n") ∧
    (∃ pre post, twoLevelsReport fsC5 v5 =
      pre ++ twoLevelSection fsC5 v5 ["src", "u.ts"] ++ post) :=
  ⟨claim_C5.1 fsC5 3 [["src", "m.ts"]] ["src", "u.ts"] (by decide) (by decide) (by rfl),
   claim_C5.2.1 fsC5 v5 ⟨["src", "u.ts"], by decide, by rfl⟩,
   claim_C5.2.2.1 fsC5 v5 ["src", "u.ts"] (by rfl),
   claim_C5.2.2.2.1 fsC5 v5 ["src", "u.ts"] (by decide)⟩

theorem pathToString_append_single : ∀ (l : List String) (s : String),
    ∃ w, pathToString (l ++ [s]) = w ++ s := by
  intro l
  induction l with
  | nil =>
    intro s
    exact ⟨"", by simp [pathToString]⟩
  | cons x xs ih =>
    intro s
    cases xs with
    | nil => exact ⟨x ++ "/", rfl⟩
    | cons y ys =>
      obtain ⟨w, hw⟩ := ih s
      refine ⟨x ++ "/" ++ w, ?_⟩
      show x ++ "/" ++ pathToString ((y :: ys) ++ [s]) = x ++ "/" ++ w ++ s
      rw [hw, ← String.append_assoc]

theorem resolveImport_string_ext {fs : FS} {base : MPath} {imp : String} {q : MPath}
    (h : resolveImport fs base imp = some q) :
    ∃ w ext, ext ∈ exts ∧ pathToString q = w ++ ext := by
  obtain ⟨_, pre, t, ext, hext, hq⟩ := resolveImport_shape h
  obtain ⟨w0, hw0⟩ := pathToString_append_single pre (t ++ ext)
  refine ⟨w0 ++ t, ext, hext, ?_⟩
  rw [hq, hw0, String.append_assoc]

/-- C9. Every non-null resolution result is one of the probed candidates: an
existing regular file whose final segment carries one of the four extensions
(so its rendered path ends in that extension); consequently every visited path
other than a configured entry path ends in one of the four extensions. -/
theorem claim_C9 :
    (∀ (fs : FS) (base : MPath) (imp : String) (q : MPath),
      resolveImport fs base imp = some q →
      q ∈ fs.files ∧ ∃ pre t ext, ext ∈ exts ∧ q = pre ++ [t ++ ext]) ∧
    (∀ (fs : FS) (base : MPath) (imp : String) (q : MPath),
      resolveImport fs base imp = some q →
      ∃ w ext, ext ∈ exts ∧ pathToString q = w ++ ext) ∧
    (∀ (fs : FS) (cfg : Config) (V : List MPath),
      runTraversal fs cfg = Except.ok V →
      ∀ p ∈ V, (∃ e ∈ cfg.entryFiles, p = entryPath cfg.srcDir e) ∨
        ∃ w ext, ext ∈ exts ∧ pathToString p = w ++ ext) := by
  refine ⟨fun fs base imp q h => resolveImport_shape h,
    fun fs base imp q h => resolveImport_string_ext h, ?_⟩
  intro fs cfg V hrun p hp
  rcases traverseEntries_sound cfg.entryFiles [] V hrun p hp with hm | ⟨e, he, hex, hrf⟩
  · exact absurd hm (List.not_mem_nil p)
  · cases hrf with
    | refl => exact Or.inl ⟨e, he, rfl⟩
    | step h him hres => exact Or.inr (resolveImport_string_ext hres)

/-- C9 witness: the clauses instantiated on the resolution of `./c` from
`a/b.ts` and on the example traversal. -/
theorem claim_C9_witness :
    (["a", "c.tsx"] ∈ fsC3.files ∧
      ∃ pre t ext, ext ∈ exts ∧ (["a", "c.tsx"] : MPath) = pre ++ [t ++ ext]) ∧
    (∃ w ext, ext ∈ exts ∧ pathToString ["a", "c.tsx"] = w ++ ext) ∧
    ((∃ e ∈ defaultConfig.entryFiles, (["src", "a.ts"] : MPath) =
        entryPath defaultConfig.srcDir e) ∨
      ∃ w ext, ext ∈ exts ∧ pathToString ["src", "a.ts"] = w ++ ext) :=
  ⟨claim_C9.1 fsC3 ["a", "b.ts"] "./c" ["a", "c.tsx"] (by rfl),
   claim_C9.2.1 fsC3 ["a", "b.ts"] "./c" ["a", "c.tsx"] (by rfl),
   claim_C9.2.2 fsEx defaultConfig exVisited (by rfl) ["src", "a.ts"] (by decide)⟩

theorem strConcat_match_filterMap (fs : FS) (V : List MPath) (f : MPath)
    (g : MPath → String) :
    ∀ l : List String,
      strConcat (l.map (fun imp =>
        match resolveImport fs f imp with
        | some r => if r ∈ V then g r else ""
        | none => "")) =
      strConcat ((l.filterMap (fun imp =>
        match resolveImport fs f imp with
        | some r => if r ∈ V then some r else none
        | none => none)).map g) := by
  intro l
  induction l with
  | nil => rfl
  | cons imp rest ih =>
    simp only [List.map_cons, List.filterMap_cons, strConcat]
    cases hres : resolveImport fs f imp with
    | none =>
      simp only [hres]
      rw [ih]
      simp [strConcat]
    | some r =>
      by_cases hrv : r ∈ V
      · simp only [hres, if_pos hrv]
        rw [ih]
        simp [strConcat]
      · simp only [hres, if_neg hrv]
        rw [ih]
        simp [strConcat]

/-- C10. For a visited file whose read succeeds, the direct-imports report and
the two-level report list the same first-level resolved targets in the same
order: both sections are the heading followed by one bullet per target (the
two-level section merely inserts the nested block after each bullet). -/
theorem claim_C10 :
    (∀ (fs : FS) (V : List MPath) (f : MPath),
      directTargets fs V f = twoLevelTopTargets fs V f) ∧
    (∀ (fs : FS) (V : List MPath) (f : MPath), fs.readOk f = true →
      directSection fs V f = Except.ok ("## " ++ pathToString f ++ "\n" ++
        strConcat ((directTargets fs V f).map
          (fun r => "- " ++ pathToString r ++ "\n")) ++ "\n") ∧
      twoLevelSection fs V f = "## " ++ pathToString f ++ "\n" ++
        strConcat ((twoLevelTopTargets fs V f).map
          (fun r => "- " ++ pathToString r ++ "\n" ++ subBullets fs V r)) ++ "\n") := by
  refine ⟨fun fs V f => rfl, ?_⟩
  intro fs V f h
  refine ⟨by simp [directSection, h], ?_⟩
  unfold twoLevelSection
  rw [if_pos h]
  rw [strConcat_match_filterMap fs V f
    (fun r => "- " ++ pathToString r ++ "\n" ++ subBullets fs V r) (fs.fileImports f)]
  rfl

/-- C10 witness: the section equality on the readable `src/main.tsx` of the
example tree. -/
theorem claim_C10_witness :
    directSection fsEx exVisited ["src", "main.tsx"] =
      Except.ok ("## " ++ pathToString ["src", "main.tsx"] ++ "\n" ++
        strConcat ((directTargets fsEx exVisited ["src", "main.tsx"]).map
          (fun r => "- " ++ pathToString r ++ "\n")) ++ "\n") ∧
    twoLevelSection fsEx exVisited ["src", "main.tsx"] =
      "## " ++ pathToString ["src", "main.tsx"] ++ "\n" ++
        strConcat ((twoLevelTopTargets fsEx exVisited ["src", "main.tsx"]).map
          (fun r => "- " ++ pathToString r ++ "\n" ++
            subBullets fsEx exVisited r)) ++ "\n" :=
  claim_C10.2 fsEx exVisited ["src", "main.tsx"] (by rfl)

/-- C3 witness: the null-for-non-relative clause instantiated on the external
package import `react`. -/
theorem claim_C3_witness : resolveImport fsC3 ["a", "b.ts"] "react" = none :=
  claim_C3.2.1 fsC3 ["a", "b.ts"] "react" (by rfl)
